import Mathlib

/-! Verification of the chat answer-resolution and recommendation logic of
`src/app.py`. Similarity scores are modelled as rationals; the numpy
`argmax`/`argsort` operations and Python's stable `sort` are made explicit. -/

namespace App

/-- Result of the `/chat` endpoint resolution: response text, source tag, and
the list of top matches as (question, score) pairs. -/
structure ChatResult where
  response : String
  source : String
  top_matches : List (String × ℚ)
deriving DecidableEq, Repr

/-- Outcome of building the TF-IDF index and scoring a query against it:
`noIndex` models `tfidf_kb is None` (empty KB or failed fit), `failure` models
an exception inside the `try` block (vectorization or similarity scoring
raised), `ok sims` is the similarity row vector for the query. -/
inductive SimOutcome where
  | noIndex : SimOutcome
  | failure : SimOutcome
  | ok : List ℚ → SimOutcome
deriving DecidableEq, Repr

/-- Startup index construction plus per-request scoring (`app.py` lines 34-42
and 73-75): `tfidf_kb` is `None` iff the KB question list is empty or the fit
raised; otherwise the query either raises (`none`) or yields a score vector. -/
def buildOutcome (kbQuestions : List String) (fitOk : Bool)
    (queryResult : Option (List ℚ)) : SimOutcome :=
  if kbQuestions.isEmpty then SimOutcome.noIndex
  else if fitOk then
    match queryResult with
    | none => SimOutcome.failure
    | some sims => SimOutcome.ok sims
  else SimOutcome.noIndex

/-- Tail of `numpy.argmax`: scans the remaining scores keeping the index of the
current best; a later score replaces the best only when strictly greater. -/
def argmaxGo : List ℚ → ℚ → Nat → Nat → Nat
  | [], _, _, b => b
  | x :: xs, bv, i, b => if bv < x then argmaxGo xs x (i + 1) i else argmaxGo xs bv (i + 1) b

/-- Model of `sims.argmax()`: first index attaining the maximum score. -/
def argmax : List ℚ → Nat
  | [] => 0
  | x :: xs => argmaxGo xs x 1 0

/-- Ascending order on score positions: smaller score first, tied scores by
ascending index. numpy's default `argsort` kind (quicksort/introsort) is
documented non-stable, so its tie order is unspecified in general; this
particular linearization is the one its insertion-sort regime for short
arrays produces, and is used only for the executable model. Universal
statements about the program assume no more than `isArgsort` below. A total,
transitive, antisymmetric order on positions. -/
def argsortRel (s : List ℚ) (i j : Nat) : Prop :=
  s.getD i 0 < s.getD j 0 ∨ (s.getD i 0 = s.getD j 0 ∧ i ≤ j)

instance argsortRelDec (s : List ℚ) : DecidableRel (argsortRel s) := fun i j =>
  inferInstanceAs (Decidable (s.getD i 0 < s.getD j 0 ∨ (s.getD i 0 = s.getD j 0 ∧ i ≤ j)))

instance argsortRelTotal (s : List ℚ) : IsTotal Nat (argsortRel s) where
  total i j := by
    unfold argsortRel
    rcases lt_trichotomy (s.getD i 0) (s.getD j 0) with h | h | h
    · exact Or.inl (Or.inl h)
    · rcases Nat.le_total i j with h2 | h2
      · exact Or.inl (Or.inr ⟨h, h2⟩)
      · exact Or.inr (Or.inr ⟨h.symm, h2⟩)
    · exact Or.inr (Or.inl h)

instance argsortRelTrans (s : List ℚ) : IsTrans Nat (argsortRel s) where
  trans i j k := by
    unfold argsortRel
    rintro (h1 | ⟨h1, h1i⟩) (h2 | ⟨h2, h2i⟩)
    · exact Or.inl (h1.trans h2)
    · exact Or.inl (h2 ▸ h1)
    · exact Or.inl (h1 ▸ h2)
    · exact Or.inr ⟨h1.trans h2, h1i.trans h2i⟩

/-- Executable model of `sims.argsort()`: positions in ascending score order
with ties by ascending position (the linearization numpy's small-array
insertion-sort path executes). One admissible result among those described by
`isArgsort`; the tie order of the default non-stable sort is unspecified in
general. -/
def argsortAsc (s : List ℚ) : List Nat :=
  (List.range s.length).insertionSort (argsortRel s)

/-- Documented semantics of `sims.argsort()` under numpy's default sort kind:
some permutation of all positions arranged in ascending score order; the
default sort is not stable, so the relative order of tied scores is
unspecified. -/
def isArgsort (s : List ℚ) (idx : List Nat) : Prop :=
  idx.Perm (List.range s.length) ∧ idx.Pairwise (fun i j => s.getD i 0 ≤ s.getD j 0)

/-- The top-position selection `idx[::-1][:min(3, len(sims))]` of `app.py`
line 81, applied to an argsort result `idx`. -/
def topIdxOf (s : List ℚ) (idx : List Nat) : List Nat :=
  idx.reverse.take (min 3 s.length)

/-- Model of `sims.argsort()[::-1][:min(3, len(sims))]` (`app.py` lines
80-81), over the executable argsort model. -/
def chatTopIdx (s : List ℚ) : List Nat :=
  topIdxOf s (argsortAsc s)

def apologyMsg : String := "Sorry, I couldn\x27t find an answer."

def noMatchMsg : String :=
  "I couldn\x27t find a direct match in the knowledge base. Try rephrasing, or here are related KB questions you can check."

def nlpErrorMsg : String := "Internal NLP error — fallback response."

/-- Answer resolution of the `/chat` endpoint (`app.py` lines 67-96), given the
similarity outcome for the query message. -/
def chatResolve (kbQuestions kbAnswers : List String) (threshold : ℚ) :
    SimOutcome → ChatResult
  | SimOutcome.noIndex => ⟨apologyMsg, "fallback", []⟩
  | SimOutcome.failure => ⟨nlpErrorMsg, "fallback", []⟩
  | SimOutcome.ok sims =>
    let bestIdx : Int := if 0 < sims.length then (argmax sims : Int) else -1
    let bestScore : ℚ := if 0 ≤ bestIdx then sims.getD bestIdx.toNat 0 else 0
    let tm : List (String × ℚ) :=
      (chatTopIdx sims).map fun i => (kbQuestions.getD i "", sims.getD i 0)
    if 0 ≤ bestIdx ∧ threshold ≤ bestScore then
      ⟨kbAnswers.getD bestIdx.toNat "", "kb", tm⟩
    else
      ⟨noMatchMsg, "fallback", tm⟩

/-- A material catalog entry (`materials.json` row): id, title, description,
tags. -/
structure Material where
  id : String
  title : String
  description : String
  tags : List String
deriving DecidableEq, Repr

/-- Cardinality of `user_tags.intersection(set(m.tags))` (`app.py` line 143):
the number of distinct user tags occurring among the material tags. -/
def tagOverlap (userTags : List String) (mtags : List String) : Nat :=
  (userTags.dedup.filter fun t => mtags.contains t).length

/-- Pairs each list element with its position, starting at `i`. -/
def idxFrom {α : Type} (i : Nat) : List α → List (Nat × α)
  | [] => []
  | a :: as => (i, a) :: idxFrom (i + 1) as

/-- Descending order on (score, position, material) triples: larger score
first, tied scores by ascending catalog position — exactly the order produced
by Python's stable `scored.sort(key=lambda x: x[0], reverse=True)`. Total,
transitive, and antisymmetric on the distinct positions, so the sorted
sequence is algorithm-independent. -/
def scoredRel (a b : Nat × Nat × Material) : Prop :=
  b.1 < a.1 ∨ (a.1 = b.1 ∧ a.2.1 ≤ b.2.1)

instance scoredRelDec : DecidableRel scoredRel := fun a b =>
  inferInstanceAs (Decidable (b.1 < a.1 ∨ (a.1 = b.1 ∧ a.2.1 ≤ b.2.1)))

instance scoredRelTotal : IsTotal (Nat × Nat × Material) scoredRel where
  total a b := by
    unfold scoredRel
    rcases lt_trichotomy a.1 b.1 with h | h | h
    · exact Or.inr (Or.inl h)
    · rcases Nat.le_total a.2.1 b.2.1 with h2 | h2
      · exact Or.inl (Or.inr ⟨h, h2⟩)
      · exact Or.inr (Or.inr ⟨h.symm, h2⟩)
    · exact Or.inl (Or.inl h)

instance scoredRelTrans : IsTrans (Nat × Nat × Material) scoredRel where
  trans a b c := by
    unfold scoredRel
    rintro (h1 | ⟨h1, h1i⟩) (h2 | ⟨h2, h2i⟩) <;> omega

/-- Scored materials of the personalized pass (`app.py` lines 140-145): each
material is scored by tag overlap, then sorted by descending score; tied
scores keep ascending catalog position (Python's `list.sort` is stable). -/
def personalScored (userTags : List String) (materials : List Material) :
    List (Nat × Nat × Material) :=
  ((idxFrom 0 materials).map fun p => (tagOverlap userTags p.2.tags, p.1, p.2)).insertionSort
    scoredRel

/-- The personalized pass (`app.py` lines 138-146): when the user tag set is
non-empty, keep the positively scored materials in sorted order, take `num`. -/
def personalPass (userTags : List String) (materials : List Material) (num : Nat) :
    List Material :=
  if userTags.isEmpty then []
  else (((personalScored userTags materials).filter fun x => 0 < x.1).map
    fun x => x.2.2).take num

/-- Popularity fallback (`app.py` lines 162-168): for each popular id, append
the first catalog material with that id not already present; after each id,
stop once `num` entries are accumulated. -/
def popPass (materials : List Material) (num : Nat) :
    List String → List Material → List Material
  | [], recs => recs
  | pid :: rest, recs =>
    let next := match materials.find? (fun m => decide (m.id = pid ∧ m ∉ recs)) with
      | some m => recs ++ [m]
      | none => recs
    if num ≤ next.length then next else popPass materials num rest next

/-- Catalog fill (`app.py` lines 171-175): walk the catalog, appending any
material not already present, checking the length bound after each element. -/
def catalogFill (num : Nat) : List Material → List Material → List Material
  | [], recs => recs
  | m :: rest, recs =>
    let next := if m ∈ recs then recs else recs ++ [m]
    if num ≤ next.length then next else catalogFill num rest next

/-- The `/recommend` computation (`app.py` lines 137-177) as a function of the
aggregated user tag set, the catalog, the popularity id sequence and `num`. -/
def recommend (userTags : List String) (materials : List Material)
    (popIds : List String) (num : Nat) : List Material :=
  let recs := personalPass userTags materials num
  (if recs.length < num then catalogFill num materials (popPass materials num popIds recs)
   else recs).take num

/-- Full behaviour of `argmaxGo`: either no remaining score beats the running
best (the running best index is returned), or the result is the first
remaining position whose score beats the running best and is maximal. -/
theorem argmaxGo_spec (xs : List ℚ) (bv : ℚ) (i b : Nat) :
    (argmaxGo xs bv i b = b ∧ ∀ k, k < xs.length → xs.getD k 0 ≤ bv) ∨
    (∃ k, k < xs.length ∧ argmaxGo xs bv i b = i + k ∧ bv < xs.getD k 0 ∧
      (∀ j, j < xs.length → xs.getD j 0 ≤ xs.getD k 0) ∧
      (∀ j, j < k → xs.getD j 0 < xs.getD k 0)) := by
  induction xs generalizing bv i b with
  | nil => exact Or.inl ⟨rfl, fun k hk => absurd hk (Nat.not_lt_zero k)⟩
  | cons x xs ih =>
    by_cases h : bv < x
    · have hrec : argmaxGo (x :: xs) bv i b = argmaxGo xs x (i + 1) i := by
        simp [argmaxGo, h]
      rcases ih x (i + 1) i with ⟨heq, hall⟩ | ⟨k, hk, heq, hgt, hmax, hfirst⟩
      · refine Or.inr ⟨0, Nat.succ_pos _, by rw [hrec, heq]; omega, by simpa using h, ?_,
          fun j hj => absurd hj (Nat.not_lt_zero j)⟩
        intro j hj
        match j with
        | 0 => simp
        | j + 1 =>
          simp only [List.getD_cons_succ, List.getD_cons_zero]
          exact hall j (by simpa using hj)
      · refine Or.inr ⟨k + 1, by simp only [List.length_cons]; omega,
          by rw [hrec, heq]; omega, ?_, ?_, ?_⟩
        · simp only [List.getD_cons_succ]
          exact h.trans hgt
        · intro j hj
          match j with
          | 0 =>
            simp only [List.getD_cons_zero, List.getD_cons_succ]
            exact le_of_lt hgt
          | j + 1 =>
            simp only [List.getD_cons_succ]
            exact hmax j (by simpa using hj)
        · intro j hj
          match j with
          | 0 =>
            simp only [List.getD_cons_zero, List.getD_cons_succ]
            exact hgt
          | j + 1 =>
            simp only [List.getD_cons_succ]
            exact hfirst j (by omega)
    · have hrec : argmaxGo (x :: xs) bv i b = argmaxGo xs bv (i + 1) b := by
        simp [argmaxGo, h]
      push_neg at h
      rcases ih bv (i + 1) b with ⟨heq, hall⟩ | ⟨k, hk, heq, hgt, hmax, hfirst⟩
      · refine Or.inl ⟨hrec.trans heq, ?_⟩
        intro j hj
        match j with
        | 0 => simpa using h
        | j + 1 =>
          simp only [List.getD_cons_succ]
          exact hall j (by simpa using hj)
      · refine Or.inr ⟨k + 1, by simp only [List.length_cons]; omega,
          by rw [hrec, heq]; omega, ?_, ?_, ?_⟩
        · simp only [List.getD_cons_succ]
          exact hgt
        · intro j hj
          match j with
          | 0 =>
            simp only [List.getD_cons_zero, List.getD_cons_succ]
            exact le_of_lt (lt_of_le_of_lt h hgt)
          | j + 1 =>
            simp only [List.getD_cons_succ]
            exact hmax j (by simpa using hj)
        · intro j hj
          match j with
          | 0 =>
            simp only [List.getD_cons_zero, List.getD_cons_succ]
            exact lt_of_le_of_lt h hgt
          | j + 1 =>
            simp only [List.getD_cons_succ]
            exact hfirst j (by omega)

/-- On a non-empty score vector, `argmax` is a valid position carrying the
maximal score, and every strictly earlier position has strictly smaller
score: `argmax` returns the first position attaining the maximum. -/
theorem argmax_spec (s : List ℚ) (h : s ≠ []) :
    argmax s < s.length ∧
    (∀ j, j < s.length → s.getD j 0 ≤ s.getD (argmax s) 0) ∧
    (∀ j, j < argmax s → s.getD j 0 < s.getD (argmax s) 0) := by
  match s, h with
  | x :: xs, _ =>
    have ha : argmax (x :: xs) = argmaxGo xs x 1 0 := rfl
    rw [ha]
    rcases argmaxGo_spec xs x 1 0 with ⟨heq, hall⟩ | ⟨k, hk, heq, hgt, hmax, hfirst⟩
    · rw [heq]
      refine ⟨Nat.succ_pos _, ?_, fun j hj => absurd hj (Nat.not_lt_zero j)⟩
      intro j hj
      match j with
      | 0 => simp
      | j + 1 =>
        simp only [List.getD_cons_succ, List.getD_cons_zero]
        exact hall j (by simpa using hj)
    · rw [heq]
      have h1k : 1 + k = k + 1 := Nat.add_comm 1 k
      rw [h1k]
      refine ⟨by simp only [List.length_cons]; omega, ?_, ?_⟩
      · intro j hj
        match j with
        | 0 =>
          simp only [List.getD_cons_zero, List.getD_cons_succ]
          exact le_of_lt hgt
        | j + 1 =>
          simp only [List.getD_cons_succ]
          exact hmax j (by simpa using hj)
      · intro j hj
        match j with
        | 0 =>
          simp only [List.getD_cons_zero, List.getD_cons_succ]
          exact hgt
        | j + 1 =>
          simp only [List.getD_cons_succ]
          exact hfirst j (by omega)

/-- Closed form of the `/chat` resolution on a successfully scored query with a
non-empty knowledge base. -/
theorem chatResolve_ok_eq (kbQ kbA : List String) (t : ℚ) (sims : List ℚ)
    (h : 0 < sims.length) :
    chatResolve kbQ kbA t (SimOutcome.ok sims) =
      if t ≤ sims.getD (argmax sims) 0 then
        ⟨kbA.getD (argmax sims) "", "kb",
          (chatTopIdx sims).map fun i => (kbQ.getD i "", sims.getD i 0)⟩
      else
        ⟨noMatchMsg, "fallback",
          (chatTopIdx sims).map fun i => (kbQ.getD i "", sims.getD i 0)⟩ := by
  simp only [chatResolve, if_pos h]
  have h0 : (0 : Int) ≤ (argmax sims : Int) := Int.natCast_nonneg _
  simp [h0]

/-- C1: with a non-empty knowledge base whose index built and a query that
scored successfully, resolution returns source "kb" iff the best similarity
score meets the threshold (boundary case `best = threshold` included), and
then the response is the answer at the best-scoring position; otherwise the
source is "fallback" with the generic no-direct-match response. -/
theorem chat_kb_iff_threshold (kbQ kbA : List String) (t : ℚ) (sims : List ℚ)
    (h : sims ≠ []) :
    ((chatResolve kbQ kbA t (SimOutcome.ok sims)).source = "kb" ↔
      t ≤ sims.getD (argmax sims) 0) ∧
    (t ≤ sims.getD (argmax sims) 0 →
      (chatResolve kbQ kbA t (SimOutcome.ok sims)).response =
        kbA.getD (argmax sims) "") ∧
    (¬ t ≤ sims.getD (argmax sims) 0 →
      (chatResolve kbQ kbA t (SimOutcome.ok sims)).source = "fallback" ∧
      (chatResolve kbQ kbA t (SimOutcome.ok sims)).response = noMatchMsg) := by
  have hlen : 0 < sims.length := List.length_pos.mpr h
  rw [chatResolve_ok_eq kbQ kbA t sims hlen]
  by_cases ht : t ≤ sims.getD (argmax sims) 0
  · rw [if_pos ht]
    exact ⟨⟨fun _ => ht, fun _ => rfl⟩, fun _ => rfl, fun hc => absurd ht hc⟩
  · rw [if_neg ht]
    exact ⟨⟨fun hc => absurd hc (show ¬ ("fallback" = "kb") by decide), fun hc => absurd hc ht⟩,
      fun hc => absurd hc ht, fun _ => ⟨rfl, rfl⟩⟩

theorem chat_kb_iff_threshold_witness :
    ((chatResolve ["q"] ["a"] 1 (SimOutcome.ok [1])).source = "kb" ↔
      (1 : ℚ) ≤ [(1 : ℚ)].getD (argmax [1]) 0) ∧
    ((1 : ℚ) ≤ [(1 : ℚ)].getD (argmax [1]) 0 →
      (chatResolve ["q"] ["a"] 1 (SimOutcome.ok [1])).response =
        ["a"].getD (argmax [1]) "") ∧
    (¬ (1 : ℚ) ≤ [(1 : ℚ)].getD (argmax [1]) 0 →
      (chatResolve ["q"] ["a"] 1 (SimOutcome.ok [1])).source = "fallback" ∧
      (chatResolve ["q"] ["a"] 1 (SimOutcome.ok [1])).response = noMatchMsg) :=
  chat_kb_iff_threshold ["q"] ["a"] 1 [1] (List.cons_ne_nil _ _)

/-- C7: with an empty knowledge base, every query resolves to the generic
apology fallback with empty top matches, whatever the fit flag and the query
scoring outcome are — no exception path exists. -/
theorem chat_empty_kb_fallback (kbA : List String) (t : ℚ) (fitOk : Bool)
    (queryResult : Option (List ℚ)) :
    chatResolve [] kbA t (buildOutcome [] fitOk queryResult) =
      ⟨apologyMsg, "fallback", []⟩ := rfl

/-- C8: when the query cannot be scored (the vectorize/similarity step
raises, modelled by a `none` query result), resolution recovers locally: the
source is "fallback" with empty top matches and one of the two fallback
messages — the failure is never surfaced to the caller. -/
theorem chat_query_failure_fallback (kbQ kbA : List String) (t : ℚ) (fitOk : Bool) :
    (chatResolve kbQ kbA t (buildOutcome kbQ fitOk none)).source = "fallback" ∧
    (chatResolve kbQ kbA t (buildOutcome kbQ fitOk none)).top_matches = [] ∧
    ((chatResolve kbQ kbA t (buildOutcome kbQ fitOk none)).response = apologyMsg ∨
      (chatResolve kbQ kbA t (buildOutcome kbQ fitOk none)).response = nlpErrorMsg) := by
  cases kbQ with
  | nil => exact ⟨rfl, rfl, Or.inl rfl⟩
  | cons q qs =>
    cases fitOk with
    | true => exact ⟨rfl, rfl, Or.inr rfl⟩
    | false => exact ⟨rfl, rfl, Or.inl rfl⟩

/-- C9: when several knowledge-base entries tie for the highest score and that
score meets the threshold, the returned answer belongs to the earliest tied
position: the best position is the first index attaining the maximum. -/
theorem chat_tie_first_answer (kbQ kbA : List String) (t : ℚ) (sims : List ℚ)
    (i : Nat) (hi : i < sims.length)
    (hmax : ∀ j, j < sims.length → sims.getD j 0 ≤ sims.getD i 0)
    (hfirst : ∀ j, j < i → sims.getD j 0 < sims.getD i 0)
    (ht : t ≤ sims.getD i 0) :
    argmax sims = i ∧
    (chatResolve kbQ kbA t (SimOutcome.ok sims)).source = "kb" ∧
    (chatResolve kbQ kbA t (SimOutcome.ok sims)).response = kbA.getD i "" := by
  have hne : sims ≠ [] := by
    intro hE
    rw [hE] at hi
    exact absurd hi (Nat.not_lt_zero i)
  obtain ⟨ha1, ha2, ha3⟩ := argmax_spec sims hne
  have heq : argmax sims = i := by
    rcases Nat.lt_trichotomy (argmax sims) i with hlt | hE | hgt
    · exact absurd (ha2 i hi) (not_le_of_lt (hfirst _ hlt))
    · exact hE
    · exact absurd (hmax _ ha1) (not_le_of_lt (ha3 i hgt))
  have hlen : 0 < sims.length := List.length_pos.mpr hne
  refine ⟨heq, ?_⟩
  rw [chatResolve_ok_eq kbQ kbA t sims hlen, heq, if_pos ht]
  exact ⟨rfl, rfl⟩

theorem chat_tie_first_answer_witness :
    argmax [1, 1] = 0 ∧
    (chatResolve ["q0", "q1"] ["a0", "a1"] 1 (SimOutcome.ok [1, 1])).source = "kb" ∧
    (chatResolve ["q0", "q1"] ["a0", "a1"] 1 (SimOutcome.ok [1, 1])).response =
      ["a0", "a1"].getD 0 "" :=
  chat_tie_first_answer ["q0", "q1"] ["a0", "a1"] 1 [1, 1] 0 (by decide)
    (by decide) (by decide) (by decide)

/-- The top-matches list is the same in both threshold branches: it only
depends on the similarity vector. -/
theorem chatResolve_top_matches (kbQ kbA : List String) (t : ℚ) (sims : List ℚ) :
    (chatResolve kbQ kbA t (SimOutcome.ok sims)).top_matches =
      (chatTopIdx sims).map fun i => (kbQ.getD i "", sims.getD i 0) := by
  simp only [chatResolve]
  repeat' split
  all_goals rfl

/-- Every position selected for the top matches is a valid corpus position. -/
theorem chatTopIdx_mem_lt (s : List ℚ) (i : Nat) (hm : i ∈ chatTopIdx s) :
    i < s.length := by
  have h1 : i ∈ argsortAsc s := by
    have := List.take_subset (min 3 s.length) (argsortAsc s).reverse hm
    exact (List.mem_reverse).1 this
  have h2 : i ∈ List.range s.length := (List.mem_insertionSort _).1 h1
  exact List.mem_range.1 h2

/-- The selected top positions are pairwise distinct. -/
theorem chatTopIdx_nodup (s : List ℚ) : (chatTopIdx s).Nodup := by
  have h1 : (argsortAsc s).Nodup :=
    ((List.perm_insertionSort (argsortRel s) (List.range s.length)).nodup_iff).2
      (List.nodup_range _)
  exact ((List.nodup_reverse.2 h1).sublist (List.take_sublist _ _))

/-- C2 counterexample: with two entries tied at the top score, the computed
top order is position 1 before position 0 — ties are listed with the higher
corpus position first, not the lower one as claimed; correspondingly the
returned top matches list the second question first. -/
theorem chat_top_ties_counterexample :
    chatTopIdx [1, 1] = [1, 0] ∧
    (chatResolve ["q0", "q1"] ["a0", "a1"] 1 (SimOutcome.ok [1, 1])).top_matches =
      [("q1", 1), ("q0", 1)] ∧
    ¬ (chatTopIdx [1, 1]).Pairwise
      (fun i j => [(1 : ℚ), 1].getD j 0 < [(1 : ℚ), 1].getD i 0 ∨
        ([(1 : ℚ), 1].getD i 0 = [(1 : ℚ), 1].getD j 0 ∧ i < j)) := by
  refine ⟨by decide, by decide, by decide⟩

/-- The executable argsort model satisfies the documented semantics. -/
theorem argsortAsc_isArgsort (s : List ℚ) : isArgsort s (argsortAsc s) :=
  ⟨List.perm_insertionSort _ _,
    (List.sorted_insertionSort (argsortRel s) (List.range s.length)).imp
      fun h => h.elim le_of_lt fun h2 => le_of_eq h2.1⟩

/-- C2 (amended): on a non-empty scored corpus the top-matches list is
computed the same way whatever the threshold, and pairs questions with their
scores along the selected positions. For every argsort result admissible
under numpy's documented non-stable semantics (the executable model being one
such result), the selected top positions have length exactly `min 3 |kb|`,
are valid and pairwise-distinct corpus positions, and carry weakly descending
scores; the relative order of tied scores is unspecified. -/
theorem chat_top_matches_spec (kbQ kbA : List String) (t t2 : ℚ) (sims : List ℚ)
    (idx : List Nat) (_hne : sims ≠ []) (hlen : sims.length = kbQ.length)
    (hidx : isArgsort sims idx) :
    (chatResolve kbQ kbA t (SimOutcome.ok sims)).top_matches =
      (chatTopIdx sims).map (fun i => (kbQ.getD i "", sims.getD i 0)) ∧
    (chatResolve kbQ kbA t (SimOutcome.ok sims)).top_matches =
      (chatResolve kbQ kbA t2 (SimOutcome.ok sims)).top_matches ∧
    isArgsort sims (argsortAsc sims) ∧
    chatTopIdx sims = topIdxOf sims (argsortAsc sims) ∧
    (topIdxOf sims idx).length = min 3 kbQ.length ∧
    (∀ i ∈ topIdxOf sims idx, i < kbQ.length) ∧
    (topIdxOf sims idx).Nodup ∧
    (topIdxOf sims idx).Pairwise (fun i j => sims.getD j 0 ≤ sims.getD i 0) := by
  obtain ⟨hperm, hsort⟩ := hidx
  have hlen1 : idx.length = sims.length := by
    rw [hperm.length_eq, List.length_range]
  refine ⟨chatResolve_top_matches kbQ kbA t sims, ?_, argsortAsc_isArgsort sims,
    rfl, ?_, ?_, ?_, ?_⟩
  · rw [chatResolve_top_matches kbQ kbA t sims, chatResolve_top_matches kbQ kbA t2 sims]
  · simp only [topIdxOf, List.length_take, List.length_reverse, hlen1, hlen]
    omega
  · intro i hm
    have h1 : i ∈ idx := (List.mem_reverse).1 (List.take_subset _ _ hm)
    have h2 : i ∈ List.range sims.length := hperm.mem_iff.1 h1
    rw [← hlen]
    exact List.mem_range.1 h2
  · have h1 : idx.Nodup := (hperm.nodup_iff).2 (List.nodup_range _)
    exact (List.nodup_reverse.2 h1).sublist (List.take_sublist _ _)
  · have hrev : idx.reverse.Pairwise (fun i j => sims.getD j 0 ≤ sims.getD i 0) :=
      (List.pairwise_reverse).2 hsort
    exact List.Pairwise.sublist (List.take_sublist _ _) hrev

theorem chat_top_matches_spec_witness :
    (chatResolve ["q0", "q1"] ["a0", "a1"] 1 (SimOutcome.ok [1, 1])).top_matches =
      (chatTopIdx [1, 1]).map (fun i => (["q0", "q1"].getD i "", [(1 : ℚ), 1].getD i 0)) ∧
    (chatResolve ["q0", "q1"] ["a0", "a1"] 1 (SimOutcome.ok [1, 1])).top_matches =
      (chatResolve ["q0", "q1"] ["a0", "a1"] 0 (SimOutcome.ok [1, 1])).top_matches ∧
    isArgsort [1, 1] (argsortAsc [1, 1]) ∧
    chatTopIdx [1, 1] = topIdxOf [1, 1] (argsortAsc [1, 1]) ∧
    (topIdxOf [1, 1] [0, 1]).length = min 3 (["q0", "q1"] : List String).length ∧
    (∀ i ∈ topIdxOf [1, 1] [0, 1], i < (["q0", "q1"] : List String).length) ∧
    (topIdxOf [1, 1] [0, 1]).Nodup ∧
    (topIdxOf [1, 1] [0, 1]).Pairwise
      (fun i j => [(1 : ℚ), 1].getD j 0 ≤ [(1 : ℚ), 1].getD i 0) :=
  chat_top_matches_spec ["q0", "q1"] ["a0", "a1"] 1 0 [1, 1] [0, 1] (by decide)
    (by decide) ⟨by decide, by decide⟩

/-- C10: a recommendation request with `num = 0` is answered with the empty
list and no error: the personalized pass truncates to zero entries and the
fallback passes are skipped because the accumulated length is not strictly
below `num`. -/
theorem recommend_num_zero (userTags : List String) (materials : List Material)
    (popIds : List String) :
    recommend userTags materials popIds 0 = [] := by
  simp [recommend, Nat.not_lt_zero]

/-- Walking the catalog from a partial result shorter than `num`, with no
duplicates among the seen entries, appends the remaining entries in catalog
order up to `num`. -/
theorem catalogFill_of_nodup (num : Nat) (ms : List Material) :
    ∀ recs : List Material, (recs ++ ms).Nodup → recs.length < num →
      catalogFill num ms recs = (recs ++ ms).take num := by
  induction ms with
  | nil =>
    intro recs _ hlt
    simp [catalogFill, List.take_of_length_le (Nat.le_of_lt hlt)]
  | cons m rest ih =>
    intro recs hnd hlt
    have hm : m ∉ recs := fun hc =>
      (List.nodup_append.1 hnd).2.2 hc (List.mem_cons_self m rest)
    simp only [catalogFill, if_neg hm]
    by_cases hstop : num ≤ (recs ++ [m]).length
    · rw [if_pos hstop]
      have hnum : num = recs.length + 1 := by
        simp only [List.length_append, List.length_cons, List.length_nil] at hstop
        omega
      rw [hnum, List.take_append_eq_append_take,
        List.take_of_length_le (Nat.le_succ _)]
      simp
    · rw [if_neg hstop]
      have hnd2 : ((recs ++ [m]) ++ rest).Nodup := by
        simpa [List.append_assoc] using hnd
      have hlt2 : (recs ++ [m]).length < num := Nat.lt_of_not_le hstop
      rw [ih (recs ++ [m]) hnd2 hlt2]
      simp

/-- C6 counterexample: a catalog holding the same entry twice has length 2,
yet with an empty profile and empty popularity the recommendation for
`num = 2` returns a single entry — the catalog fill skips the duplicate, so
the result is neither of length `num` nor the first `num` catalog entries. -/
theorem recommend_catalog_fill_counterexample :
    recommend [] [⟨"x", "t", "d", []⟩, ⟨"x", "t", "d", []⟩] [] 2 =
      [⟨"x", "t", "d", []⟩] ∧
    (recommend [] [⟨"x", "t", "d", []⟩, ⟨"x", "t", "d", []⟩] [] 2).length ≠ 2 :=
  ⟨by decide, by decide⟩

/-- C6 (amended): for a catalog with pairwise-distinct material ids holding at
least `num` materials, an empty user profile with an empty popularity
sequence is recommended exactly the first `num` materials in catalog order. -/
theorem recommend_empty_profile (materials : List Material) (num : Nat)
    (hids : (materials.map Material.id).Nodup) (hnum : num ≤ materials.length) :
    recommend [] materials [] num = materials.take num ∧
    (recommend [] materials [] num).length = num := by
  have hnd : materials.Nodup := hids.of_map
  have h1 : personalPass [] materials num = [] := rfl
  have h2 : popPass materials num [] [] = [] := rfl
  have hres : recommend [] materials [] num = materials.take num := by
    simp only [recommend, h1, h2]
    by_cases h0 : 0 < num
    · rw [if_pos (by simpa using h0),
        catalogFill_of_nodup num materials [] (by simpa using hnd) (by simpa using h0)]
      simp [List.take_take]
    · have hz : num = 0 := by omega
      subst hz
      simp
  refine ⟨hres, ?_⟩
  rw [hres, List.length_take]
  omega

theorem recommend_empty_profile_witness :
    recommend [] [⟨"m1", "", "", ["python"]⟩, ⟨"m2", "", "", ["go"]⟩] [] 2 =
      ([⟨"m1", "", "", ["python"]⟩, ⟨"m2", "", "", ["go"]⟩] : List Material).take 2 ∧
    (recommend [] [⟨"m1", "", "", ["python"]⟩, ⟨"m2", "", "", ["go"]⟩] [] 2).length = 2 :=
  recommend_empty_profile [⟨"m1", "", "", ["python"]⟩, ⟨"m2", "", "", ["go"]⟩] 2
    (by decide) (by decide)

/-- Tag overlap depends only on the set of user tags: two tag lists with the
same distinct elements give the same overlap with any material tag list. -/
theorem tagOverlap_ext (u1 u2 mtags : List String) (hperm : u1.dedup.Perm u2.dedup) :
    tagOverlap u1 mtags = tagOverlap u2 mtags :=
  (hperm.filter _).length_eq

/-- C4: the recommendation computation is deterministic: its output depends
only on the set of user tags, not on the order or multiplicity with which the
unordered tag set is presented — any two tag lists with the same distinct
elements produce identical output sequences (identical inputs in particular). -/
theorem recommend_deterministic (u1 u2 : List String) (materials : List Material)
    (popIds : List String) (num : Nat) (hperm : u1.dedup.Perm u2.dedup) :
    recommend u1 materials popIds num = recommend u2 materials popIds num := by
  have hov : ∀ mtags, tagOverlap u1 mtags = tagOverlap u2 mtags := fun mtags =>
    tagOverlap_ext u1 u2 mtags hperm
  have h12 : u1 = [] ↔ u2 = [] := by
    constructor
    · intro hE
      subst hE
      exact (List.dedup_eq_nil u2).1 hperm.symm.eq_nil
    · intro hE
      subst hE
      exact (List.dedup_eq_nil u1).1 hperm.eq_nil
  have hempty : u1.isEmpty = u2.isEmpty := by
    cases u1 with
    | nil =>
      rw [h12.1 rfl]
    | cons a as =>
      cases u2 with
      | nil => exact absurd (h12.2 rfl) (List.cons_ne_nil a as)
      | cons b bs => rfl
  have hscored : personalScored u1 materials = personalScored u2 materials := by
    unfold personalScored
    have hmap : ((idxFrom 0 materials).map fun p => (tagOverlap u1 p.2.tags, p.1, p.2)) =
        (idxFrom 0 materials).map fun p => (tagOverlap u2 p.2.tags, p.1, p.2) :=
      List.map_congr_left fun p _ => by rw [hov]
    rw [hmap]
  have hpass : personalPass u1 materials num = personalPass u2 materials num := by
    unfold personalPass
    rw [hempty, hscored]
  unfold recommend
  rw [hpass]

theorem recommend_deterministic_witness :
    recommend ["a", "b"] [⟨"m1", "", "", ["a"]⟩] ["p"] 1 =
      recommend ["b", "a", "a"] [⟨"m1", "", "", ["a"]⟩] ["p"] 1 :=
  recommend_deterministic ["a", "b"] ["b", "a", "a"] [⟨"m1", "", "", ["a"]⟩]
    ["p"] 1 (by decide)

/-- Dropping the positions recovers the original list. -/
theorem idxFrom_map_snd {α : Type} (i : Nat) (l : List α) :
    (idxFrom i l).map Prod.snd = l := by
  induction l generalizing i with
  | nil => rfl
  | cons a as ih => simp [idxFrom, ih]

/-- The positions produced by `idxFrom` are the consecutive range. -/
theorem idxFrom_map_fst {α : Type} (i : Nat) (l : List α) :
    (idxFrom i l).map Prod.fst = List.range' i l.length := by
  induction l generalizing i with
  | nil => rfl
  | cons a as ih => simp [idxFrom, ih, List.range'_succ]

/-- Each indexed pair records the element at its position. -/
theorem idxFrom_mem {α : Type} (i : Nat) (l : List α) (p : Nat × α)
    (hp : p ∈ idxFrom i l) : i ≤ p.1 ∧ l[p.1 - i]? = some p.2 := by
  induction l generalizing i with
  | nil => cases hp
  | cons a as ih =>
    cases List.mem_cons.1 hp with
    | inl h =>
      subst h
      exact ⟨Nat.le_refl i, by simp⟩
    | inr h =>
      obtain ⟨h1, h2⟩ := ih (i + 1) h
      refine ⟨by omega, ?_⟩
      have hstep : p.1 - i = (p.1 - (i + 1)) + 1 := by omega
      rw [hstep]
      simpa using h2

/-- Sorting permutes the scored catalog. -/
theorem personalScored_perm (u : List String) (ms : List Material) :
    (personalScored u ms).Perm ((idxFrom 0 ms).map fun p => (tagOverlap u p.2.tags, p.1, p.2)) :=
  List.perm_insertionSort _ _

/-- Filtering the positively scored entries and dropping the bookkeeping
recovers exactly the positively overlapping materials. -/
theorem filterMap_idx_eq (u : List String) (ms : List Material) : ∀ i : Nat,
    (((idxFrom i ms).map fun p => (tagOverlap u p.2.tags, p.1, p.2)).filter
      (fun x => 0 < x.1)).map (fun x => x.2.2) =
    ms.filter (fun m => 0 < tagOverlap u m.tags) := by
  induction ms with
  | nil => intro i; rfl
  | cons m rest ih =>
    intro i
    simp only [idxFrom, List.map_cons, List.filter_cons]
    by_cases h : 0 < tagOverlap u m.tags
    · simp [h, ih (i + 1)]
    · simp [h, ih (i + 1)]

/-- C5: with a non-empty user tag set, the personalized pass takes the first
`num` of the positively scored materials: the kept entries are exactly the
materials with positive tag overlap (as a permutation), each scored entry
records its catalog position and its overlap score, and the sorted sequence
is in descending score order with ties broken by ascending catalog position. -/
theorem personal_pass_spec (u : List String) (ms : List Material) (num : Nat)
    (hu : u ≠ []) :
    personalPass u ms num =
      (((personalScored u ms).filter fun x => 0 < x.1).map fun x => x.2.2).take num ∧
    (personalPass u ms num).length ≤ num ∧
    (((personalScored u ms).filter fun x => 0 < x.1).map (fun x => x.2.2)).Perm
      (ms.filter (fun m => 0 < tagOverlap u m.tags)) ∧
    (∀ x ∈ personalScored u ms, ms[x.2.1]? = some x.2.2 ∧
      x.1 = tagOverlap u x.2.2.tags) ∧
    (personalScored u ms).Pairwise
      (fun a b => b.1 < a.1 ∨ (a.1 = b.1 ∧ a.2.1 < b.2.1)) := by
  have hne : u.isEmpty = false := List.isEmpty_eq_false.mpr hu
  have h1 : personalPass u ms num =
      (((personalScored u ms).filter fun x => 0 < x.1).map fun x => x.2.2).take num := by
    simp [personalPass, hne]
  refine ⟨h1, ?_, ?_, ?_, ?_⟩
  · rw [h1]
    exact List.length_take_le _ _
  · exact (((personalScored_perm u ms).filter _).map _).trans
      (List.Perm.of_eq (filterMap_idx_eq u ms 0))
  · intro x hx
    have hx0 : x ∈ (idxFrom 0 ms).map fun p => (tagOverlap u p.2.tags, p.1, p.2) :=
      (personalScored_perm u ms).mem_iff.1 hx
    obtain ⟨q, hq, hfq⟩ := List.mem_map.1 hx0
    obtain ⟨-, hget⟩ := idxFrom_mem 0 ms q hq
    rw [← hfq]
    exact ⟨by simpa using hget, rfl⟩
  · have hsorted : (personalScored u ms).Pairwise scoredRel :=
      List.sorted_insertionSort scoredRel _
    have hcomp : (((idxFrom 0 ms).map fun p => (tagOverlap u p.2.tags, p.1, p.2)).map
        fun x => x.2.1) = (idxFrom 0 ms).map Prod.fst := by
      rw [List.map_map]
      exact List.map_congr_left fun p _ => rfl
    have hfst : (((personalScored u ms).map fun x => x.2.1)).Perm
        ((idxFrom 0 ms).map Prod.fst) := by
      have h0 := (personalScored_perm u ms).map fun x => x.2.1
      rwa [hcomp] at h0
    have hnd : ((personalScored u ms).map fun x => x.2.1).Nodup := by
      rw [List.Perm.nodup_iff hfst, idxFrom_map_fst]
      exact List.nodup_range' _ _
    have hpw : (personalScored u ms).Pairwise (fun a b => a.2.1 ≠ b.2.1) :=
      List.pairwise_map.1 hnd
    exact (hsorted.and hpw).imp fun {a b} hc =>
      hc.1.elim Or.inl fun h12 => Or.inr ⟨h12.1, Nat.lt_of_le_of_ne h12.2 hc.2⟩

theorem personal_pass_spec_witness :
    personalPass ["go"] ([⟨"m1", "", "", ["python"]⟩, ⟨"m2", "", "", ["go"]⟩] : List Material) 2 =
      (((personalScored ["go"] ([⟨"m1", "", "", ["python"]⟩, ⟨"m2", "", "", ["go"]⟩] : List Material)).filter
        fun x => 0 < x.1).map fun x => x.2.2).take 2 ∧
    (personalPass ["go"] ([⟨"m1", "", "", ["python"]⟩, ⟨"m2", "", "", ["go"]⟩] : List Material) 2).length ≤ 2 ∧
    (((personalScored ["go"] ([⟨"m1", "", "", ["python"]⟩, ⟨"m2", "", "", ["go"]⟩] : List Material)).filter
        fun x => 0 < x.1).map (fun x => x.2.2)).Perm
      (([⟨"m1", "", "", ["python"]⟩, ⟨"m2", "", "", ["go"]⟩] : List Material).filter
        (fun m => 0 < tagOverlap ["go"] m.tags)) ∧
    (∀ x ∈ personalScored ["go"] ([⟨"m1", "", "", ["python"]⟩, ⟨"m2", "", "", ["go"]⟩] : List Material),
      ([⟨"m1", "", "", ["python"]⟩, ⟨"m2", "", "", ["go"]⟩] : List Material)[x.2.1]? = some x.2.2 ∧
      x.1 = tagOverlap ["go"] x.2.2.tags) ∧
    (personalScored ["go"] ([⟨"m1", "", "", ["python"]⟩, ⟨"m2", "", "", ["go"]⟩] : List Material)).Pairwise
      (fun a b => b.1 < a.1 ∨ (a.1 = b.1 ∧ a.2.1 < b.2.1)) :=
  personal_pass_spec ["go"] ([⟨"m1", "", "", ["python"]⟩, ⟨"m2", "", "", ["go"]⟩] : List Material) 2
    (by decide)

/-- Appending a catalog material that is not yet present preserves the
distinct-ids invariant of an accumulated recommendation list. -/
theorem append_id_nodup (msAll recs : List Material) (m : Material)
    (hids : (msAll.map Material.id).Nodup)
    (hrec : (recs.map Material.id).Nodup ∧ ∀ r ∈ recs, r ∈ msAll)
    (hm : m ∈ msAll) (hnotin : m ∉ recs) :
    ((recs ++ [m]).map Material.id).Nodup ∧ ∀ r ∈ recs ++ [m], r ∈ msAll := by
  have hinj := List.inj_on_of_nodup_map hids
  constructor
  · rw [List.map_append, List.nodup_append]
    refine ⟨hrec.1, List.nodup_singleton _, ?_⟩
    intro a ha hb
    obtain ⟨r, hr, hrid⟩ := List.mem_map.1 ha
    have haeq : a = m.id := by simpa using hb
    have hrm : r = m := hinj (hrec.2 r hr) hm (hrid.trans haeq)
    exact hnotin (hrm ▸ hr)
  · intro r hr
    rcases List.mem_append.1 hr with h | h
    · exact hrec.2 r h
    · have hrm : r = m := by simpa using h
      exact hrm ▸ hm

/-- The popularity fallback preserves the distinct-ids invariant. -/
theorem popPass_inv (msAll : List Material) (num : Nat)
    (hids : (msAll.map Material.id).Nodup) :
    ∀ (pids : List String) (recs : List Material),
      ((recs.map Material.id).Nodup ∧ ∀ r ∈ recs, r ∈ msAll) →
      ((popPass msAll num pids recs).map Material.id).Nodup ∧
        ∀ r ∈ popPass msAll num pids recs, r ∈ msAll := by
  intro pids
  induction pids with
  | nil => exact fun recs h => h
  | cons pid rest ih =>
    intro recs h
    simp only [popPass]
    cases hfind : msAll.find? (fun m => decide (m.id = pid ∧ m ∉ recs)) with
    | none =>
      simp only [hfind]
      by_cases hlen : num ≤ recs.length
      · rw [if_pos hlen]
        exact h
      · rw [if_neg hlen]
        exact ih recs h
    | some m =>
      simp only [hfind]
      have hmem : m ∈ msAll := List.mem_of_find?_eq_some hfind
      have hp := List.find?_some hfind
      have hcond : m.id = pid ∧ m ∉ recs := of_decide_eq_true hp
      have h2 := append_id_nodup msAll recs m hids h hmem hcond.2
      by_cases hlen : num ≤ (recs ++ [m]).length
      · rw [if_pos hlen]
        exact h2
      · rw [if_neg hlen]
        exact ih (recs ++ [m]) h2

/-- The catalog fill preserves the distinct-ids invariant. -/
theorem catalogFill_inv (num : Nat) (msAll : List Material)
    (hids : (msAll.map Material.id).Nodup) :
    ∀ ms recs : List Material, (∀ x ∈ ms, x ∈ msAll) →
      ((recs.map Material.id).Nodup ∧ ∀ r ∈ recs, r ∈ msAll) →
      ((catalogFill num ms recs).map Material.id).Nodup ∧
        ∀ r ∈ catalogFill num ms recs, r ∈ msAll := by
  intro ms
  induction ms with
  | nil => exact fun recs _ h => h
  | cons m rest ih =>
    intro recs hsub h
    simp only [catalogFill]
    by_cases hm : m ∈ recs
    · rw [if_pos hm]
      by_cases hlen : num ≤ recs.length
      · rw [if_pos hlen]
        exact h
      · rw [if_neg hlen]
        exact ih recs (fun x hx => hsub x (List.mem_cons_of_mem m hx)) h
    · rw [if_neg hm]
      have h2 := append_id_nodup msAll recs m hids h (hsub m (List.mem_cons_self m rest)) hm
      by_cases hlen : num ≤ (recs ++ [m]).length
      · rw [if_pos hlen]
        exact h2
      · rw [if_neg hlen]
        exact ih (recs ++ [m]) (fun x hx => hsub x (List.mem_cons_of_mem m hx)) h2

/-- The personalized pass establishes the distinct-ids invariant. -/
theorem personalPass_inv (u : List String) (ms : List Material) (num : Nat)
    (hids : (ms.map Material.id).Nodup) :
    ((personalPass u ms num).map Material.id).Nodup ∧
      ∀ r ∈ personalPass u ms num, r ∈ ms := by
  by_cases hu : u.isEmpty
  · unfold personalPass
    rw [if_pos hu]
    exact ⟨List.nodup_nil, fun r hr => absurd hr (List.not_mem_nil r)⟩
  · unfold personalPass
    rw [if_neg hu]
    have hD : ((personalScored u ms).map fun x => x.2.2.id).Perm (ms.map Material.id) := by
      have h0 := (personalScored_perm u ms).map fun x => x.2.2.id
      have hcomp : (((idxFrom 0 ms).map fun p => (tagOverlap u p.2.tags, p.1, p.2)).map
          fun x => x.2.2.id) = ms.map Material.id := by
        rw [List.map_map]
        rw [show ms.map Material.id = ((idxFrom 0 ms).map Prod.snd).map Material.id by
          rw [idxFrom_map_snd]]
        rw [List.map_map]
        exact List.map_congr_left fun p _ => rfl
      rwa [hcomp] at h0
    have hDnodup : ((personalScored u ms).map fun x => x.2.2.id).Nodup :=
      (List.Perm.nodup_iff hD).2 hids
    have hC : List.Sublist
        (((personalScored u ms).filter fun x => 0 < x.1).map (fun x => x.2.2.id))
        ((personalScored u ms).map (fun x => x.2.2.id)) :=
      (List.filter_sublist _).map _
    constructor
    · have hEq : List.Sublist
          (((((personalScored u ms).filter fun x => 0 < x.1).map
            fun x => x.2.2).take num).map Material.id)
          (((personalScored u ms).filter fun x => 0 < x.1).map (fun x => x.2.2.id)) := by
        rw [show ((personalScored u ms).filter fun x => 0 < x.1).map (fun x => x.2.2.id) =
            (((personalScored u ms).filter fun x => 0 < x.1).map fun x => x.2.2).map
              Material.id by
            rw [List.map_map]
            exact List.map_congr_left fun p _ => rfl]
        exact (List.take_sublist _ _).map _
      exact List.Nodup.sublist (hEq.trans hC) hDnodup
    · intro r hr
      have hr1 := List.take_subset _ _ hr
      obtain ⟨x, hx, hxr⟩ := List.mem_map.1 hr1
      have hx1 : x ∈ personalScored u ms := List.mem_of_mem_filter hx
      have hx2 : x ∈ (idxFrom 0 ms).map fun p => (tagOverlap u p.2.tags, p.1, p.2) :=
        (personalScored_perm u ms).mem_iff.1 hx1
      obtain ⟨q, hq, hfq⟩ := List.mem_map.1 hx2
      have hq2 : q.2 ∈ ms := by
        rw [← idxFrom_map_snd 0 ms]
        exact List.mem_map_of_mem Prod.snd hq
      rw [← hxr, ← hfq]
      exact hq2

/-- C3 counterexample: a catalog with two different materials sharing the id
"x" makes the recommendation return both — deduplication is by whole-entry
equality, not by id, so the output can contain two entries with the same id. -/
theorem recommend_dup_id_counterexample :
    recommend [] ([⟨"x", "t1", "d1", []⟩, ⟨"x", "t2", "d2", []⟩] : List Material) [] 2 =
      ([⟨"x", "t1", "d1", []⟩, ⟨"x", "t2", "d2", []⟩] : List Material) ∧
    ¬ ((recommend [] ([⟨"x", "t1", "d1", []⟩, ⟨"x", "t2", "d2", []⟩] : List Material)
        [] 2).map Material.id).Nodup :=
  ⟨by decide, by decide⟩

/-- C3 (amended): for every catalog whose material ids are pairwise distinct
(the data model's id-uniqueness), every user tag set, popularity sequence and
`num`, the recommendation contains no two entries with the same id and has
length at most `num`. -/
theorem recommend_nodup_ids (u : List String) (ms : List Material)
    (pop : List String) (num : Nat) (hids : (ms.map Material.id).Nodup) :
    ((recommend u ms pop num).map Material.id).Nodup ∧
    (recommend u ms pop num).length ≤ num := by
  have hpp := personalPass_inv u ms num hids
  have hbody : ((if (personalPass u ms num).length < num then
      catalogFill num ms (popPass ms num pop (personalPass u ms num))
      else personalPass u ms num).map Material.id).Nodup := by
    by_cases hlt : (personalPass u ms num).length < num
    · rw [if_pos hlt]
      exact (catalogFill_inv num ms hids ms _ (fun x hx => hx)
        (popPass_inv ms num hids pop _ hpp)).1
    · rw [if_neg hlt]
      exact hpp.1
  constructor
  · simp only [recommend]
    exact List.Nodup.sublist ((List.take_sublist _ _).map _) hbody
  · simp only [recommend]
    exact List.length_take_le _ _

theorem recommend_nodup_ids_witness :
    ((recommend ["go"] ([⟨"m1", "", "", ["python"]⟩, ⟨"m2", "", "", ["go"]⟩] : List Material)
        ["p"] 5).map Material.id).Nodup ∧
    (recommend ["go"] ([⟨"m1", "", "", ["python"]⟩, ⟨"m2", "", "", ["go"]⟩] : List Material)
        ["p"] 5).length ≤ 5 :=
  recommend_nodup_ids ["go"] ([⟨"m1", "", "", ["python"]⟩, ⟨"m2", "", "", ["go"]⟩] : List Material)
    ["p"] 5 (by decide)

end App
